import Mathlib

/-!
Verification of the RPFM container/codec engine against its specification.

The development shallowly embeds the parts of the repository that the
checked properties speak about: the primitive wire codec, the interactive
DB decoder replay loop, the Loc table key handlers, the CSV import
handler, the dependency-pack generation, the PackFile dialect selection,
and the ESF tree-view build/read-back pair.

Machine integers are modelled as Nat with explicit bounds (a 32-bit field
is a Nat below 2 ^ 32); byte buffers are lists of Nat below 256; a Float
wire value is modelled by its 32-bit pattern, since the codec moves the
four bytes of the pattern and performs no floating-point arithmetic.
-/

/-! ## Primitive codec

Modelled from the spec: the module common/coding_helpers.rs is not under
src/ (only its callers are), so the primitive codec is taken from section
4.1 of the spec: decode(buffer, offset, type) yields (value, new_offset);
fixed-width types are little-endian (Boolean 1 byte with a 0/1 validity
check, Integer 4, LongInteger 8, Float 4); strings carry a 2-byte
little-endian count followed by that many UTF-8 bytes (StringU8) or
UTF-16 units (StringU16); optional strings carry a 1-byte presence flag,
0 meaning the empty string with nothing further consumed. -/

/-- The eight primitive wire types of a table field. -/
inductive FieldType where
  | boolean
  | float
  | integer
  | longInteger
  | stringU8
  | stringU16
  | optionalStringU8
  | optionalStringU16
deriving DecidableEq

/-- A decoded primitive value. Numeric values are wire-level: a float is
its 32-bit pattern, strings are their code-unit sequences. -/
inductive FieldValue where
  | boolean (b : Bool)
  | float (bits : Nat)
  | integer (n : Nat)
  | longInteger (n : Nat)
  | stringU8 (bytes : List Nat)
  | stringU16 (units : List Nat)
  | optionalStringU8 (bytes : List Nat)
  | optionalStringU16 (units : List Nat)
deriving DecidableEq

/-- The wire type a value belongs to. -/
def fieldTypeOf : FieldValue → FieldType
  | .boolean _ => .boolean
  | .float _ => .float
  | .integer _ => .integer
  | .longInteger _ => .longInteger
  | .stringU8 _ => .stringU8
  | .stringU16 _ => .stringU16
  | .optionalStringU8 _ => .optionalStringU8
  | .optionalStringU16 _ => .optionalStringU16

/-- Well-formedness of a value for its wire type: numeric fields fit their
width, string lengths fit the 2-byte count, code units fit their width. -/
def FieldValue.wf : FieldValue → Bool
  | .boolean _ => true
  | .float bits => bits < 2 ^ 32
  | .integer n => n < 2 ^ 32
  | .longInteger n => n < 2 ^ 64
  | .stringU8 bytes => bytes.length < 2 ^ 16 && bytes.all (fun b => b < 256)
  | .stringU16 units => units.length < 2 ^ 16 && units.all (fun u => u < 2 ^ 16)
  | .optionalStringU8 bytes => bytes.length < 2 ^ 16 && bytes.all (fun b => b < 256)
  | .optionalStringU16 units => units.length < 2 ^ 16 && units.all (fun u => u < 2 ^ 16)

/-- The two codec-level decode errors of section 7 of the spec. -/
inductive CodecError where
  | malformedField
  | unexpectedEndOfData
deriving DecidableEq

/-- k bytes of n, little-endian. -/
def toLE : Nat → Nat → List Nat
  | 0, _ => []
  | k + 1, n => n % 256 :: toLE k (n / 256)

/-- Value of a little-endian byte list. -/
def fromLE : List Nat → Nat
  | [] => 0
  | b :: bs => b + 256 * fromLE bs

/-- The k bytes of the buffer starting at offset i, or none when the
buffer ends before i + k (the UnexpectedEndOfData situation). -/
def bytesAt (buf : List Nat) (i k : Nat) : Option (List Nat) :=
  if i + k ≤ buf.length then some ((buf.drop i).take k) else none

/-- Pair consecutive bytes into little-endian 16-bit units. -/
def pairU16 : List Nat → List Nat
  | b0 :: b1 :: rest => (b0 + 256 * b1) :: pairU16 rest
  | _ => []

/-- Encode one primitive value; the exact structural inverse of decoding. -/
def encode_field : FieldValue → List Nat
  | .boolean b => [if b then 1 else 0]
  | .float bits => toLE 4 bits
  | .integer n => toLE 4 n
  | .longInteger n => toLE 8 n
  | .stringU8 bytes => toLE 2 bytes.length ++ bytes
  | .stringU16 units => toLE 2 units.length ++ units.flatMap (fun u => toLE 2 u)
  | .optionalStringU8 bytes =>
      if bytes.isEmpty then [0] else 1 :: (toLE 2 bytes.length ++ bytes)
  | .optionalStringU16 units =>
      if units.isEmpty then [0]
      else 1 :: (toLE 2 units.length ++ units.flatMap (fun u => toLE 2 u))

/-- Decode a length-prefixed byte string at offset i: a 2-byte
little-endian count, then that many bytes. -/
def decode_string_u8_body (buf : List Nat) (i : Nat) :
    Except CodecError (List Nat × Nat) :=
  match bytesAt buf i 2 with
  | none => .error .unexpectedEndOfData
  | some pre =>
      let n := fromLE pre
      match bytesAt buf (i + 2) n with
      | none => .error .unexpectedEndOfData
      | some bs => .ok (bs, i + 2 + n)

/-- Decode a length-prefixed UTF-16 string at offset i: a 2-byte
little-endian unit count, then twice that many bytes. -/
def decode_string_u16_body (buf : List Nat) (i : Nat) :
    Except CodecError (List Nat × Nat) :=
  match bytesAt buf i 2 with
  | none => .error .unexpectedEndOfData
  | some pre =>
      let n := fromLE pre
      match bytesAt buf (i + 2) (2 * n) with
      | none => .error .unexpectedEndOfData
      | some bs => .ok (pairU16 bs, i + 2 + 2 * n)

/-- decode(buffer, offset, type) of section 4.1: the decoded value and the
new offset, or a codec error. A Boolean byte outside 0/1 is MalformedField;
running past the end of the buffer is UnexpectedEndOfData; an optional
string with presence byte 0 is the empty string with one byte consumed,
and any nonzero presence byte means present. -/
def decode_field (buf : List Nat) (i : Nat) : FieldType → Except CodecError (FieldValue × Nat)
  | .boolean =>
      match bytesAt buf i 1 with
      | some [0] => .ok (.boolean false, i + 1)
      | some [1] => .ok (.boolean true, i + 1)
      | some _ => .error .malformedField
      | none => .error .unexpectedEndOfData
  | .float =>
      match bytesAt buf i 4 with
      | some bs => .ok (.float (fromLE bs), i + 4)
      | none => .error .unexpectedEndOfData
  | .integer =>
      match bytesAt buf i 4 with
      | some bs => .ok (.integer (fromLE bs), i + 4)
      | none => .error .unexpectedEndOfData
  | .longInteger =>
      match bytesAt buf i 8 with
      | some bs => .ok (.longInteger (fromLE bs), i + 8)
      | none => .error .unexpectedEndOfData
  | .stringU8 =>
      match decode_string_u8_body buf i with
      | .ok (bs, i2) => .ok (.stringU8 bs, i2)
      | .error e => .error e
  | .stringU16 =>
      match decode_string_u16_body buf i with
      | .ok (us, i2) => .ok (.stringU16 us, i2)
      | .error e => .error e
  | .optionalStringU8 =>
      match bytesAt buf i 1 with
      | some [0] => .ok (.optionalStringU8 [], i + 1)
      | some _ =>
          match decode_string_u8_body buf (i + 1) with
          | .ok (bs, i2) => .ok (.optionalStringU8 bs, i2)
          | .error e => .error e
      | none => .error .unexpectedEndOfData
  | .optionalStringU16 =>
      match bytesAt buf i 1 with
      | some [0] => .ok (.optionalStringU16 [], i + 1)
      | some _ =>
          match decode_string_u16_body buf (i + 1) with
          | .ok (us, i2) => .ok (.optionalStringU16 us, i2)
          | .error e => .error e
      | none => .error .unexpectedEndOfData

/-! ## Interactive decoder replay

From src/src/main.rs, update_first_row_decoded (lines 4376-4419): the
replay walks the field list store in order; for each row it reads the
type label from column 2 (an unknown label falls into the
OptionalStringU16 | _ arm), decodes at the running cursor with
decode_data_by_fieldtype, stores the decoded preview in column 6, and
threads the returned cursor into the next row, returning the final
cursor. -/

/-- One row of the decoder field list store: the committed type label
(column 2) and the decoded preview (column 6). -/
structure DecoderRow where
  label : String
  preview : String
deriving DecidableEq

/-- The label match of update_first_row_decoded, main.rs lines 4382-4391:
the eighth arm is OptionalStringU16 | _, so an unrecognized label is
treated as OptionalStringU16. -/
def field_type_of_label (label : String) : FieldType :=
  if label = "Bool" then .boolean
  else if label = "Float" then .float
  else if label = "Integer" then .integer
  else if label = "LongInteger" then .longInteger
  else if label = "StringU8" then .stringU8
  else if label = "StringU16" then .stringU16
  else if label = "OptionalStringU8" then .optionalStringU8
  else .optionalStringU16

/-- Text rendering of a decoded value for the preview column. -/
def render_field_value : FieldValue → String
  | .boolean b => if b then "true" else "false"
  | .float bits => Nat.repr bits
  | .integer n => Nat.repr n
  | .longInteger n => Nat.repr n
  | .stringU8 bytes => (bytes.map Char.ofNat).asString
  | .stringU16 units => (units.map Char.ofNat).asString
  | .optionalStringU8 bytes => (bytes.map Char.ofNat).asString
  | .optionalStringU16 units => (units.map Char.ofNat).asString

/-- Modelled from the spec: decode_data_by_fieldtype lives in the ui
module, which is not under src/. Per sections 4.1 and 4.4, it decodes one
field of the given type at the cursor and returns the preview text and
the new cursor; on a failed decode the cursor is unchanged (the Rejected
transition of the session state machine). -/
def decode_data_by_fieldtype (buf : List Nat) (t : FieldType) (index : Nat) :
    String × Nat :=
  match decode_field buf index t with
  | .ok (v, index2) => (render_field_value v, index2)
  | .error _ => ("Error", index)

/-- update_first_row_decoded: replay every field of the list in order
from the given cursor, updating each preview and threading the cursor;
returns the updated rows and the final cursor. -/
def update_first_row_decoded (buf : List Nat) (rows : List DecoderRow) (index : Nat) :
    List DecoderRow × Nat :=
  match rows with
  | [] => ([], index)
  | r :: rest =>
      let d := decode_data_by_fieldtype buf (field_type_of_label r.label) index
      let tail := update_first_row_decoded buf rest d.2
      ({ r with preview := d.1 } :: tail.1, tail.2)

/-- The decoder_delete_row handler, main.rs lines 3228-3243: remove the
selected row from the field list, then replay everything from the
original cursor (the end of the table header). -/
def decoder_delete_row (buf : List Nat) (rows : List DecoderRow)
    (selected : Nat) (initial_index : Nat) : List DecoderRow × Nat :=
  update_first_row_decoded buf (rows.eraseIdx selected) initial_index

/-- Specification-side description of the replay: sequentially decode the
given field-type labels, in order, from the given cursor, collecting the
previews and the final cursor. -/
def seq_decode (buf : List Nat) (labels : List String) (index : Nat) :
    List String × Nat :=
  match labels with
  | [] => ([], index)
  | l :: rest =>
      let d := decode_data_by_fieldtype buf (field_type_of_label l) index
      let tail := seq_decode buf rest d.2
      (d.1 :: tail.1, tail.2)

/-! ## Loc table key handlers

From src/src/main.rs: the key-cell edit handler (lines 2440-2495) and the
add-rows handler (lines 2593-2627). The list store column 1 holds the
key of each row. -/

/-- One row of a Loc table: key, text, tooltip flag. -/
structure LocRow where
  key : String
  text : String
  tooltip : Bool
deriving DecidableEq

/-- Rust str::contains of a single char, as used by the handler via
new_text.contains with a space character. -/
def rust_contains_char (s : String) (c : Char) : Bool :=
  s.data.any (fun x => x = c)

/-- Result of a key-cell edit: the resulting table rows, and the table
data written back to the container entry (none when nothing was written). -/
structure LocEditResult where
  rows : List LocRow
  written : Option (List LocRow)
deriving DecidableEq

/-- The key-cell edit handler, main.rs lines 2440-2495. If the text is
unchanged nothing happens. Otherwise the handler scans column 1 for a row
whose key equals the new text, then rejects an empty new text, a new text
containing a space character, or an already existing key, showing a
dialog and leaving everything untouched; only when all three checks pass
does it store the new key and write the table back to the container. -/
def loc_key_cell_edited (rows : List LocRow) (edited : Fin rows.length)
    (new_text : String) : LocEditResult :=
  let old_text := (rows.get edited).key
  if old_text = new_text then { rows := rows, written := none }
  else
    let key_already_exists := rows.any (fun r => r.key = new_text)
    if new_text = "" then { rows := rows, written := none }
    else if rust_contains_char new_text ' ' then { rows := rows, written := none }
    else if key_already_exists then { rows := rows, written := none }
    else
      let rows2 := rows.set edited { rows.get edited with key := new_text }
      { rows := rows2, written := some rows2 }

/-- The key assigned to the j-th fresh Loc row, format New_line_ then the
decimal rendering of j. -/
def new_line_key (j : Nat) : String :=
  "New_line_" ++ Nat.repr j

/-- The duplicate-avoidance loop of the add-rows handler, main.rs lines
2605-2620, with explicit fuel: scan the keys from the top; on meeting the
key New_line_j restart the scan from the first row with j + 1; when the
scan falls off the end, New_line_j is the fresh key. The loop is only
entered with a nonempty table, so an empty rest with fuel left does not
arise; it is mapped to none, as is running out of fuel. -/
def loc_add_row_scan (keys : List String) : Nat → List String → Nat → Option String
  | 0, _, _ => none
  | _ + 1, [], _ => none
  | fuel + 1, r :: rs, j =>
      if r = new_line_key j then loc_add_row_scan keys fuel keys (j + 1)
      else
        match rs with
        | [] => some (new_line_key j)
        | _ :: _ => loc_add_row_scan keys fuel rs j

/-- The fresh key chosen by one iteration of the add-rows handler, main.rs
lines 2600-2624: New_line_1 when the table has no rows, otherwise the
result of the duplicate-avoidance scan started at j = 1. The fuel bound
suffices for the scan to complete (proved below). -/
def loc_add_row_new_key (keys : List String) : Option String :=
  match keys with
  | [] => some (new_line_key 1)
  | _ :: _ => loc_add_row_scan keys ((keys.length + 2) * (keys.length + 1)) keys 1

/-! ## CSV import

From src/src/main.rs, the DB import handler (lines 3994-4032). The
parsing step DBData::import_csv is in the packedfile module, which is not
under src/, and is modelled from section 4.3 of the spec: one text line
per row, columns in field order, typed values parsed per their primitive
type; a file whose column count does not match the active definition is
rejected, and no row is committed unless the entire file parses. -/

/-- Modelled from the spec: parse one CSV cell per its primitive type
(canonical renderings: true/false, decimal integer; a float cell is its
wire pattern; string cells are taken verbatim as code units). -/
def parse_cell (t : FieldType) (s : String) : Option FieldValue :=
  match t with
  | .boolean =>
      if s = "true" then some (.boolean true)
      else if s = "false" then some (.boolean false)
      else none
  | .float =>
      match s.toNat? with
      | some n => if n < 2 ^ 32 then some (.float n) else none
      | none => none
  | .integer =>
      match s.toNat? with
      | some n => if n < 2 ^ 32 then some (.integer n) else none
      | none => none
  | .longInteger =>
      match s.toNat? with
      | some n => if n < 2 ^ 64 then some (.longInteger n) else none
      | none => none
  | .stringU8 => some (.stringU8 (s.data.map Char.toNat))
  | .stringU16 => some (.stringU16 (s.data.map Char.toNat))
  | .optionalStringU8 => some (.optionalStringU8 (s.data.map Char.toNat))
  | .optionalStringU16 => some (.optionalStringU16 (s.data.map Char.toNat))

/-- Modelled from the spec: parse one CSV line against the field list,
rejecting a column count that does not match the active definition. -/
def parse_row (fields : List FieldType) (line : List String) :
    Option (List FieldValue) :=
  if line.length = fields.length then
    (fields.zip line).mapM (fun p => parse_cell p.1 p.2)
  else none

/-- Modelled from the spec: DBData::import_csv, all-or-nothing parse of
the whole file; any bad row rejects the import with no row committed. -/
def import_csv (fields : List FieldType) (lines : List (List String)) :
    Except Unit (List (List FieldValue)) :=
  match lines.mapM (parse_row fields) with
  | some rows => .ok rows
  | none => .error ()

/-- The DB import handler, main.rs lines 3994-4032: keep a copy of the
table; run import_csv (on error, report and return with the table
untouched); then load the parsed table into the view and save it into the
container entry, and if either step fails restore the copied table. The
two external steps are abstracted by their success flags. The first
result component is the final in-memory table; the second is the table
committed to the container entry (none when nothing was committed). -/
def db_import_csv_handler (table : List (List FieldValue)) (fields : List FieldType)
    (lines : List (List String)) (load_ok save_ok : Bool) :
    List (List FieldValue) × Option (List (List FieldValue)) :=
  match import_csv fields lines with
  | .error _ => (table, none)
  | .ok parsed =>
      if load_ok = false then (table, none)
      else if save_ok = false then (table, none)
      else (parsed, some parsed)

/-! ## Container engine entry points in main.rs -/

/-- The path and payload of one PackedFile entry. -/
structure PackedFileEntry where
  packed_file_path : List String
  data : List Nat
deriving DecidableEq

/-- The PackFile header fields the claims touch. -/
structure PackFileHeader where
  pack_file_id : String
  pack_file_type : Nat
  packed_file_count : Nat
deriving DecidableEq

/-- A PackFile: header plus the ordered entry list. -/
structure PackFile where
  pack_file_header : PackFileHeader
  packed_files : List PackedFileEntry
deriving DecidableEq

/-- packed_file_path.starts_with of the one-element slice db, as used by
generate_dependency_pack: the first path segment is db. -/
def starts_with_db : List String → Bool
  | p :: _ => p = "db"
  | [] => false

/-- The pack transformation of generate_dependency_pack, main.rs lines
4708-4709: retain only the entries whose path starts with db, then set
the header entry count to the length of the retained list; the result is
what is passed to save_packfile. -/
def generate_dependency_pack_filter (pf : PackFile) : PackFile :=
  let files := pf.packed_files.filter (fun f => starts_with_db f.packed_file_path)
  { pack_file_header :=
      { pf.pack_file_header with packed_file_count := files.length },
    packed_files := files }

/-- The dialect selection of open_packfile for a freshly opened pack,
main.rs lines 4495-4508: the header tag PFH5 selects warhammer_2, and the
arm PFH4 | _ maps every other tag, recognized or not, to warhammer. -/
def game_selected_of_pack_id (pack_file_id : String) : String :=
  if pack_file_id = "PFH5" then "warhammer_2" else "warhammer"

/-! ## ESF node trees and the tree view

The Node data model is modelled from the spec (the rpfm_lib esf module is
not under src/): a Node is either a Record carrying a name and ordered
groups of child node lists, or a Leaf carrying a typed scalar value; a
childless snapshot of a node reproduces the node without its descendants,
and set_children installs a children snapshot into a record. The lists
are given as their own inductive families so that every traversal is
structurally recursive. The tree view logic is translated from
src/rpfm_ui/src/packedfile_views/esf/esftree/mod.rs. -/

mutual

/-- An ESF node: Record with name and ordered groups of children, or a
Leaf scalar. -/
inductive Node where
  | record (name : String) (children : GroupList)
  | leaf (value : FieldValue)

/-- The ordered sibling groups of a record. -/
inductive GroupList where
  | nil
  | cons (group : NodeList) (rest : GroupList)

/-- One ordered group of sibling nodes. -/
inductive NodeList where
  | nil
  | cons (node : Node) (rest : NodeList)

end

/-- clone_without_children: the node itself with its descendants removed;
a leaf has no descendants and is kept as is. -/
def clone_without_children : Node → Node
  | .record name _ => .record name .nil
  | .leaf v => .leaf v

/-- The children snapshot of a node: the groups of a record, nothing for
a leaf. -/
def get_children : Node → GroupList
  | .record _ children => children
  | .leaf _ => .nil

/-- set_children: install a children snapshot into a record; a leaf has
no children slot and is unchanged. -/
def set_children : Node → GroupList → Node
  | .record name _, children => .record name children
  | .leaf v, _ => .leaf v

/-- Childless clones of every member of one group. -/
def NodeList.map_childless : NodeList → NodeList
  | .nil => .nil
  | .cons n rest => .cons (clone_without_children n) (NodeList.map_childless rest)

/-- Childless clones of every member of every group. -/
def GroupList.map_childless : GroupList → GroupList
  | .nil => .nil
  | .cons g rest => .cons (NodeList.map_childless g) (GroupList.map_childless rest)

/-- An ESF value: its root node plus the remaining payload, which the
view stores and restores opaquely through the ESF_DATA slot. -/
structure ESF where
  other_data : Nat
  root_node : Node

/-- What the CHILD_NODES item slot holds once serialized: Build writes a
flat node list into the big parent slot (children[0] childless clones)
but group lists (nested lists) into every other item slot. -/
inductive ChildStash where
  | flat (l : NodeList)
  | nested (l : GroupList)

mutual

/-- One QStandardItem of the ESF tree view: the CHILDLESS_NODE slot, the
CHILD_NODES slot, and the child rows. -/
inductive QItem where
  | mk (childless_data : Node) (child_nodes_data : ChildStash) (rows : QItemList)

/-- The ordered rows of an item. -/
inductive QItemList where
  | nil
  | cons (item : QItem) (rest : QItemList)

end

/-- Concatenation of row lists. -/
def QItemList.append : QItemList → QItemList → QItemList
  | .nil, l => l
  | .cons i rest, l => .cons i (QItemList.append rest l)

/-- The ESF tree view: the ESF_DATA payload stashed on the big parent,
and the big parent item itself. -/
structure EsfView where
  esf_data : Nat
  big_parent : QItem

mutual

/-- load_node_to_view, esftree/mod.rs lines 164-211: a record child
becomes an item holding its childless clone and its nested childless
groups, with one row per children group; each group row holds the childless
clone of the record being loaded (not of the group members) and the flat
childless clones of the group, with one row per record member of the
group, recursively; a leaf is not loaded at all. -/
def load_node_to_view : Node → Option QItem
  | .leaf _ => none
  | .record name groups =>
      some (.mk (.record name .nil)
        (.nested (GroupList.map_childless groups))
        (load_group_items (.record name .nil) groups))

/-- One row per children group: the grandchild items of lines 177-199. -/
def load_group_items (parent_childless : Node) : GroupList → QItemList
  | .nil => .nil
  | .cons g rest =>
      .cons (.mk parent_childless (.flat (NodeList.map_childless g)) (load_member_items g))
        (load_group_items parent_childless rest)

/-- The record members of one group, loaded recursively (lines 182-187);
leaves are skipped. -/
def load_member_items : NodeList → QItemList
  | .nil => .nil
  | .cons n rest =>
      match load_node_to_view n with
      | some item => .cons item (load_member_items rest)
      | none => load_member_items rest

end

/-- All record children of the root, across every group, loaded directly
into the big parent (lines 127-131). -/
def load_root_rows : GroupList → QItemList
  | .nil => .nil
  | .cons g rest => QItemList.append (load_member_items g) (load_root_rows rest)

/-- The Build operation of update_treeview, esftree/mod.rs lines 102-146:
nothing is built unless the root is a record; the big parent holds the
ESF payload without its root, the childless root, and, in its CHILD_NODES
slot, the flat childless clones of children group 0 (indexing that
panics on a record with no groups, modelled as none). -/
def esf_tree_view_build (esf : ESF) : Option EsfView :=
  match esf.root_node with
  | .leaf _ => none
  | .record name groups =>
      match groups with
      | .nil => none
      | .cons g0 _ =>
          some { esf_data := esf.other_data,
                 big_parent := .mk (.record name .nil)
                   (.flat (NodeList.map_childless g0))
                   (load_root_rows groups) }

/-- Parsing the CHILD_NODES slot as nested groups, lines 224-232: a
nested list parses as itself; a flat empty list serializes to the empty
JSON array, which parses as the empty group list; a flat nonempty list is
a JSON array of node objects and fails to parse as nested, and the
handler logs the error and continues with an empty list. -/
def parse_nested : ChildStash → GroupList
  | .nested l => l
  | .flat .nil => .nil
  | .flat (.cons _ _) => .nil

/-- Substitute the record members of one stashed group by successive
elements of the read-back stack (lines 246-257); leaves are kept; when
the stack runs short the source dereferences a null child, and the
stashed record is kept here. -/
def substitute_in_group : NodeList → NodeList → NodeList × NodeList
  | .nil, stack => (.nil, stack)
  | .cons n rest, stack =>
      match n with
      | .record name children =>
          match stack with
          | .cons m ms =>
              let t := substitute_in_group rest ms
              (.cons m t.1, t.2)
          | .nil =>
              let t := substitute_in_group rest .nil
              (.cons (Node.record name children) t.1, t.2)
      | .leaf v =>
          let t := substitute_in_group rest stack
          (.cons (Node.leaf v) t.1, t.2)

/-- Substitute across all stashed groups, threading the stack. -/
def substitute_records : GroupList → NodeList → GroupList × NodeList
  | .nil, stack => (.nil, stack)
  | .cons g rest, stack =>
      let t := substitute_in_group g stack
      let t2 := substitute_records rest t.2
      (.cons t.1 t2.1, t2.2)

mutual

/-- get_node_type_from_tree_node, esftree/mod.rs lines 214-267: parse the
childless node of the item; for a record, parse the stashed children from
CHILD_NODES and read back every row (the stacked children). For the root
item the children become the single group holding the stacked children;
for any other item with a nonempty stack, each stashed record, in order
across groups, is replaced by the read-back of the next row; with no rows
the stashed children are kept. The item of a leaf is unreachable (the
source panics there); the childless node is returned unchanged. -/
def get_node_type_from_tree_node (is_root : Bool) (item : QItem) : Node :=
  match item with
  | .mk childless_data child_nodes_data rows =>
      match childless_data with
      | .record name _ =>
          let children_stash := parse_nested child_nodes_data
          let children_stack := read_tree_rows rows
          match is_root, children_stack with
          | true, stack => .record name (.cons stack .nil)
          | false, .nil => .record name children_stash
          | false, .cons m ms =>
              .record name (substitute_records children_stash (.cons m ms)).1
      | .leaf v => .leaf v

/-- The stacked children: the read-back of every row, in order. -/
def read_tree_rows : QItemList → NodeList
  | .nil => .nil
  | .cons item rest =>
      .cons (get_node_type_from_tree_node false item) (read_tree_rows rest)

end

/-- get_esf_from_view, esftree/mod.rs lines 150-160: the ESF payload is
parsed back from the ESF_DATA slot and its root node replaced by the
read-back of the whole tree. -/
def get_esf_from_view (view : EsfView) : ESF :=
  { other_data := view.esf_data,
    root_node := get_node_type_from_tree_node true view.big_parent }

mutual

/-- Number of leaves in a node tree (used to tell trees apart). -/
def leaf_count : Node → Nat
  | .record _ children => leaf_count_groups children
  | .leaf _ => 1

/-- Number of leaves across groups. -/
def leaf_count_groups : GroupList → Nat
  | .nil => 0
  | .cons g rest => leaf_count_list g + leaf_count_groups rest

/-- Number of leaves in one group. -/
def leaf_count_list : NodeList → Nat
  | .nil => 0
  | .cons n rest => leaf_count n + leaf_count_list rest

end

/-! ## Decimal rendering facts

The add-rows handler freshens keys through the decimal rendering of a
counter, so the development needs that Nat.repr is injective and that its
output carries no whitespace. Nat.repr is bridged to a fuel-free
most-significant-first digit list. -/

/-- The digit list of n, most significant first, as produced by the fuel
inside Nat.toDigitsCore. -/
def digitsRec (n : Nat) : List Char :=
  if h : n / 10 = 0 then [Nat.digitChar (n % 10)]
  else digitsRec (n / 10) ++ [Nat.digitChar (n % 10)]
termination_by n
decreasing_by
  exact Nat.div_lt_self (Nat.pos_of_ne_zero (fun hz => h (by simp [hz]))) (by omega)

theorem toDigitsCore_eq_digitsRec :
    ∀ (fuel n : Nat) (ds : List Char), n < fuel →
      Nat.toDigitsCore 10 fuel n ds = digitsRec n ++ ds := by
  intro fuel
  induction fuel with
  | zero => intro n ds h; omega
  | succ f ih =>
      intro n ds h
      rw [Nat.toDigitsCore]
      by_cases h0 : n / 10 = 0
      · rw [if_pos h0, digitsRec, dif_pos h0]
        simp
      · rw [if_neg h0, digitsRec, dif_neg h0]
        have hpos : 0 < n := Nat.pos_of_ne_zero (fun hz => h0 (by simp [hz]))
        have hlt : n / 10 < f := by
          have := Nat.div_lt_self hpos (show 1 < 10 by omega)
          omega
        rw [ih (n / 10) (Nat.digitChar (n % 10) :: ds) hlt]
        simp

theorem repr_eq_digitsRec (n : Nat) : Nat.repr n = (digitsRec n).asString := by
  rw [Nat.repr, Nat.toDigits, toDigitsCore_eq_digitsRec (n + 1) n [] (Nat.lt_succ_self n)]
  simp

/-- Decimal value of a most-significant-first digit list. -/
def valOfDigits (ds : List Char) : Nat :=
  ds.foldl (fun a c => a * 10 + (c.toNat - 48)) 0

theorem digitChar_toNat (d : Nat) (h : d < 10) : (Nat.digitChar d).toNat = 48 + d := by
  interval_cases d <;> rfl

theorem valOfDigits_digitsRec : ∀ n : Nat, valOfDigits (digitsRec n) = n := by
  intro n
  induction n using Nat.strong_induction_on with
  | _ n ih =>
      by_cases h0 : n / 10 = 0
      · rw [digitsRec, dif_pos h0]
        have h9 : n % 10 = n := by omega
        simp [valOfDigits, digitChar_toNat (n % 10) (Nat.mod_lt n (by omega))]
        omega
      · rw [digitsRec, dif_neg h0]
        have hpos : 0 < n := Nat.pos_of_ne_zero (fun hz => h0 (by simp [hz]))
        have hlt : n / 10 < n := Nat.div_lt_self hpos (by omega)
        have hrec := ih (n / 10) hlt
        simp only [valOfDigits, List.foldl_append] at *
        simp [hrec, digitChar_toNat (n % 10) (Nat.mod_lt n (by omega))]
        omega

theorem nat_repr_injective {a b : Nat} (h : Nat.repr a = Nat.repr b) : a = b := by
  rw [repr_eq_digitsRec, repr_eq_digitsRec] at h
  have hd : digitsRec a = digitsRec b := by
    simpa [List.asString] using congrArg String.data h
  have := congrArg valOfDigits hd
  rwa [valOfDigits_digitsRec, valOfDigits_digitsRec] at this

theorem new_line_key_injective {a b : Nat} (h : new_line_key a = new_line_key b) :
    a = b := by
  unfold new_line_key at h
  have h2 := congrArg String.data h
  simp only [String.data_append] at h2
  exact nat_repr_injective (String.ext (List.append_cancel_left h2))

theorem digitChar_not_whitespace (d : Nat) (h : d < 10) :
    (Nat.digitChar d).isWhitespace = false := by
  interval_cases d <;> rfl

theorem digitsRec_not_whitespace :
    ∀ n : Nat, ∀ c ∈ digitsRec n, c.isWhitespace = false := by
  intro n
  induction n using Nat.strong_induction_on with
  | _ n ih =>
      by_cases h0 : n / 10 = 0
      · rw [digitsRec, dif_pos h0]
        intro c hc
        simp only [List.mem_singleton] at hc
        subst hc
        exact digitChar_not_whitespace (n % 10) (Nat.mod_lt n (by omega))
      · rw [digitsRec, dif_neg h0]
        have hpos : 0 < n := Nat.pos_of_ne_zero (fun hz => h0 (by simp [hz]))
        intro c hc
        rcases List.mem_append.mp hc with h1 | h2
        · exact ih (n / 10) (Nat.div_lt_self hpos (by omega)) c h1
        · simp only [List.mem_singleton] at h2
          subst h2
          exact digitChar_not_whitespace (n % 10) (Nat.mod_lt n (by omega))

theorem new_line_key_data (j : Nat) :
    (new_line_key j).data = "New_line_".data ++ digitsRec j := by
  rw [new_line_key, repr_eq_digitsRec]
  simp [String.data_append, List.asString]

theorem new_line_key_not_whitespace (j : Nat) :
    ∀ c ∈ (new_line_key j).data, c.isWhitespace = false := by
  rw [new_line_key_data]
  intro c hc
  rcases List.mem_append.mp hc with h1 | h2
  · simp only [show "New_line_".data = ['N', 'e', 'w', '_', 'l', 'i', 'n', 'e', '_'] from rfl] at h1
    fin_cases h1 <;> rfl
  · exact digitsRec_not_whitespace j c h2

theorem new_line_key_ne_empty (j : Nat) : new_line_key j ≠ "" := by
  intro h
  have h2 := congrArg String.data h
  rw [new_line_key_data] at h2
  simp at h2

/-- Among the first length-plus-one candidate counters there is always one
whose fresh key is not yet a key of the table (the candidate keys are
pairwise distinct, so they cannot all occur in the table). -/
theorem exists_free_new_line_key (keys : List String) :
    ∃ j, (1 ≤ j ∧ j ≤ keys.length + 1) ∧ new_line_key j ∉ keys := by
  by_contra hcon
  push_neg at hcon
  have hsub : (Finset.Icc 1 (keys.length + 1)).image new_line_key ⊆ keys.toFinset := by
    intro s hs
    rcases Finset.mem_image.mp hs with ⟨j, hj, rfl⟩
    rcases Finset.mem_Icc.mp hj with ⟨h1, h2⟩
    exact List.mem_toFinset.mpr (hcon j ⟨h1, h2⟩)
  have hcard : ((Finset.Icc 1 (keys.length + 1)).image new_line_key).card
      = (Finset.Icc 1 (keys.length + 1)).card :=
    Finset.card_image_of_injOn (fun a _ b _ hab => new_line_key_injective hab)
  have hle := Finset.card_le_card hsub
  rw [hcard, Nat.card_Icc] at hle
  have hlen := List.toFinset_card_le keys
  omega

/-- Correctness of the duplicate-avoidance scan: started anywhere in a
state reachable by the loop (the already scanned rows do not carry the
current candidate key, every smaller candidate occurs in the table), with
enough fuel the scan returns the least fresh candidate key. -/
theorem loc_add_row_scan_correct :
    ∀ (fuel : Nat) (keys rest pre : List String) (j jf : Nat),
      keys = pre ++ rest →
      rest ≠ [] →
      1 ≤ j →
      (∀ i, 1 ≤ i → i < j → new_line_key i ∈ keys) →
      (∀ s ∈ pre, s ≠ new_line_key j) →
      1 ≤ jf →
      new_line_key jf ∉ keys →
      (∀ i, 1 ≤ i → i < jf → new_line_key i ∈ keys) →
      (jf + 1 - j) * keys.length + rest.length ≤ fuel →
      loc_add_row_scan keys fuel rest j = some (new_line_key jf) := by
  intro fuel
  induction fuel with
  | zero =>
      intro keys rest pre j jf hsplit hne hj1 hinv hpre hjf1 hjffree hjfmin hfuel
      exfalso
      have : rest.length ≠ 0 := fun h => hne (List.length_eq_zero.mp h)
      omega
  | succ f ih =>
      intro keys rest pre j jf hsplit hne hj1 hinv hpre hjf1 hjffree hjfmin hfuel
      have hjle : j ≤ jf := by
        by_contra hlt
        exact hjffree (hinv jf hjf1 (by omega))
      cases rest with
      | nil => exact absurd rfl hne
      | cons r rs =>
        cases rs with
        | nil =>
          have hstep : loc_add_row_scan keys (f + 1) [r] j
              = if r = new_line_key j then loc_add_row_scan keys f keys (j + 1)
                else some (new_line_key j) := rfl
          rw [hstep]
          by_cases hr : r = new_line_key j
          · rw [if_pos hr]
            have hrmem : new_line_key j ∈ keys := by
              rw [hsplit, ← hr]
              exact List.mem_append_right pre (List.mem_cons_self r [])
            have hjne : j ≠ jf := fun h => hjffree (h ▸ hrmem)
            apply ih keys keys [] (j + 1) jf rfl
            · rw [hsplit]; simp
            · omega
            · intro i hi1 hilt
              by_cases hij : i = j
              · exact hij ▸ hrmem
              · exact hinv i hi1 (by omega)
            · intro s hs; simp at hs
            · exact hjf1
            · exact hjffree
            · exact hjfmin
            · have hsucc : jf + 1 - j = (jf - j) + 1 := by omega
              have hsucc2 : jf + 1 - (j + 1) = jf - j := by omega
              rw [hsucc, Nat.add_mul, Nat.one_mul] at hfuel
              rw [hsucc2]
              have hrl : 1 ≤ (r :: []).length := by simp
              omega
          · rw [if_neg hr]
            have hfree : new_line_key j ∉ keys := by
              rw [hsplit]
              intro hmem
              rcases List.mem_append.mp hmem with h1 | h2
              · exact hpre _ h1 rfl
              · simp at h2; exact hr h2.symm
            have hjeq : j = jf := by
              by_contra hne2
              have hjlt : j < jf := by omega
              exact hfree (hjfmin j hj1 hjlt)
            rw [hjeq]
        | cons r2 rs2 =>
          have hstep : loc_add_row_scan keys (f + 1) (r :: r2 :: rs2) j
              = if r = new_line_key j then loc_add_row_scan keys f keys (j + 1)
                else loc_add_row_scan keys f (r2 :: rs2) j := rfl
          rw [hstep]
          by_cases hr : r = new_line_key j
          · rw [if_pos hr]
            have hrmem : new_line_key j ∈ keys := by
              rw [hsplit, ← hr]
              exact List.mem_append_right pre (List.mem_cons_self r (r2 :: rs2))
            have hjne : j ≠ jf := fun h => hjffree (h ▸ hrmem)
            apply ih keys keys [] (j + 1) jf rfl
            · rw [hsplit]; simp
            · omega
            · intro i hi1 hilt
              by_cases hij : i = j
              · exact hij ▸ hrmem
              · exact hinv i hi1 (by omega)
            · intro s hs; simp at hs
            · exact hjf1
            · exact hjffree
            · exact hjfmin
            · have hsucc : jf + 1 - j = (jf - j) + 1 := by omega
              have hsucc2 : jf + 1 - (j + 1) = jf - j := by omega
              rw [hsucc, Nat.add_mul, Nat.one_mul] at hfuel
              rw [hsucc2]
              have hrl : 1 ≤ (r :: (r2 :: rs2)).length := by simp
              omega
          · rw [if_neg hr]
            apply ih keys (r2 :: rs2) (pre ++ [r]) j jf
            · rw [hsplit]; simp
            · simp
            · exact hj1
            · exact hinv
            · intro s hs
              rcases List.mem_append.mp hs with h1 | h2
              · exact hpre s h1
              · simp at h2; exact h2 ▸ hr
            · exact hjf1
            · exact hjffree
            · exact hjfmin
            · have hll : (r :: r2 :: rs2).length = (r2 :: rs2).length + 1 := by simp
              omega

/-! ## Round-trip lemmas for the primitive codec -/

theorem toLE_length : ∀ (k n : Nat), (toLE k n).length = k := by
  intro k
  induction k with
  | zero => intro n; rfl
  | succ k ih => intro n; simp [toLE, ih]

theorem fromLE_toLE : ∀ (k n : Nat), n < 256 ^ k → fromLE (toLE k n) = n := by
  intro k
  induction k with
  | zero => intro n h; simp [Nat.pow_zero] at h; simp [toLE, fromLE, h]
  | succ k ih =>
      intro n h
      have hdiv : n / 256 < 256 ^ k := by
        rw [Nat.div_lt_iff_lt_mul (by omega)]
        calc n < 256 ^ (k + 1) := h
        _ = 256 ^ k * 256 := by ring
      rw [toLE, fromLE, ih (n / 256) hdiv, Nat.mod_add_div]

theorem bytesAt_append (pre rest : List Nat) (k : Nat) (h : k ≤ rest.length) :
    bytesAt (pre ++ rest) pre.length k = some (rest.take k) := by
  unfold bytesAt
  rw [if_pos (by simp; omega), List.drop_left]

theorem bytesAt_append_exact (pre mid post : List Nat) :
    bytesAt (pre ++ (mid ++ post)) pre.length mid.length = some mid := by
  rw [bytesAt_append pre (mid ++ post) mid.length (by simp)]
  rw [List.take_left]

theorem decode_string_u8_body_spec (pre bs : List Nat) (h : bs.length < 2 ^ 16) :
    decode_string_u8_body (pre ++ (toLE 2 bs.length ++ bs)) pre.length
      = .ok (bs, pre.length + 2 + bs.length) := by
  unfold decode_string_u8_body
  have h1 : bytesAt (pre ++ (toLE 2 bs.length ++ bs)) pre.length 2
      = some (toLE 2 bs.length) := by
    have := bytesAt_append_exact pre (toLE 2 bs.length) bs
    rwa [toLE_length] at this
  have h2 : fromLE (toLE 2 bs.length) = bs.length :=
    fromLE_toLE 2 bs.length (by norm_num at h ⊢; omega)
  have h3 : bytesAt (pre ++ (toLE 2 bs.length ++ bs)) (pre.length + 2) bs.length
      = some bs := by
    have hassoc : pre ++ (toLE 2 bs.length ++ bs) = (pre ++ toLE 2 bs.length) ++ (bs ++ []) := by
      simp
    have hlen : (pre ++ toLE 2 bs.length).length = pre.length + 2 := by
      simp [toLE_length]
    rw [hassoc, ← hlen]
    exact bytesAt_append_exact (pre ++ toLE 2 bs.length) bs []
  simp only [h1, h2, h3]

theorem flatMap_toLE2_length (us : List Nat) :
    (us.flatMap (fun u => toLE 2 u)).length = 2 * us.length := by
  induction us with
  | nil => rfl
  | cons u rest ih => simp [List.flatMap_cons, toLE_length, ih]; omega

theorem pairU16_flatMap (us : List Nat) (h : ∀ u ∈ us, u < 2 ^ 16) :
    pairU16 (us.flatMap (fun u => toLE 2 u)) = us := by
  induction us with
  | nil => rfl
  | cons u rest ih =>
      have hu : u < 2 ^ 16 := h u (List.mem_cons_self u rest)
      have hshow : toLE 2 u = [u % 256, u / 256 % 256] := rfl
      rw [List.flatMap_cons, hshow]
      show (u % 256 + 256 * (u / 256 % 256)) :: pairU16 (rest.flatMap (fun u => toLE 2 u))
        = u :: rest
      have hdiv : u / 256 < 256 := by omega
      rw [Nat.mod_eq_of_lt hdiv, Nat.mod_add_div]
      rw [ih (fun x hx => h x (List.mem_cons_of_mem u hx))]

theorem decode_string_u16_body_spec (pre : List Nat) (us : List Nat)
    (h : us.length < 2 ^ 16) (hu : ∀ u ∈ us, u < 2 ^ 16) :
    decode_string_u16_body (pre ++ (toLE 2 us.length ++ us.flatMap (fun u => toLE 2 u)))
      pre.length = .ok (us, pre.length + 2 + 2 * us.length) := by
  unfold decode_string_u16_body
  have h1 : bytesAt (pre ++ (toLE 2 us.length ++ us.flatMap (fun u => toLE 2 u))) pre.length 2
      = some (toLE 2 us.length) := by
    have := bytesAt_append_exact pre (toLE 2 us.length) (us.flatMap (fun u => toLE 2 u))
    rwa [toLE_length] at this
  have h2 : fromLE (toLE 2 us.length) = us.length :=
    fromLE_toLE 2 us.length (by norm_num at h ⊢; omega)
  have h3 : bytesAt (pre ++ (toLE 2 us.length ++ us.flatMap (fun u => toLE 2 u)))
      (pre.length + 2) (2 * us.length) = some (us.flatMap (fun u => toLE 2 u)) := by
    have hassoc : pre ++ (toLE 2 us.length ++ us.flatMap (fun u => toLE 2 u))
        = (pre ++ toLE 2 us.length) ++ (us.flatMap (fun u => toLE 2 u) ++ []) := by
      simp
    have hlen : (pre ++ toLE 2 us.length).length = pre.length + 2 := by
      simp [toLE_length]
    have hlen2 : (us.flatMap (fun u => toLE 2 u)).length = 2 * us.length :=
      flatMap_toLE2_length us
    rw [hassoc, ← hlen, ← hlen2]
    exact bytesAt_append_exact (pre ++ toLE 2 us.length) (us.flatMap (fun u => toLE 2 u)) []
  simp only [h1, h2, h3, pairU16_flatMap us hu]

theorem bytesAt_self (l : List Nat) : bytesAt l 0 l.length = some l := by
  unfold bytesAt
  simp

theorem bytesAt_cons_one (b : Nat) (rest : List Nat) :
    bytesAt (b :: rest) 0 1 = some [b] := by
  unfold bytesAt
  simp

theorem sum_map_length_toLE2 (us : List Nat) :
    (List.map (List.length ∘ fun u => toLE 2 u) us).sum = 2 * us.length := by
  induction us with
  | nil => rfl
  | cons u rest ih =>
      simp only [List.map_cons, List.sum_cons, Function.comp_apply, toLE_length,
        List.length_cons, ih]
      omega

/-- Claim C1: for every primitive wire type T among Boolean, Float,
Integer, LongInteger, StringU8, StringU16, OptionalStringU8 and
OptionalStringU16, and every well-formed value v of T, decoding the bytes
produced by encoding v yields exactly the pair of v and the length of the
encoding: primitive encoding is the exact structural inverse of primitive
decoding. -/
theorem primitive_codec_round_trip (v : FieldValue) (h : v.wf = true) :
    decode_field (encode_field v) 0 (fieldTypeOf v)
      = .ok (v, (encode_field v).length) := by
  cases v with
  | boolean b => cases b <;> rfl
  | float bits =>
      simp only [FieldValue.wf, decide_eq_true_eq] at h
      have hb : bits < 256 ^ 4 := by norm_num; omega
      have h1 : bytesAt (toLE 4 bits) 0 4 = some (toLE 4 bits) := by
        have h4 := toLE_length 4 bits
        rw [← h4]
        exact bytesAt_self (toLE 4 bits)
      simp [encode_field, fieldTypeOf, decode_field, h1, fromLE_toLE 4 bits hb,
        toLE_length]
  | integer n =>
      simp only [FieldValue.wf, decide_eq_true_eq] at h
      have hb : n < 256 ^ 4 := by norm_num; omega
      have h1 : bytesAt (toLE 4 n) 0 4 = some (toLE 4 n) := by
        have h4 := toLE_length 4 n
        rw [← h4]
        exact bytesAt_self (toLE 4 n)
      simp [encode_field, fieldTypeOf, decode_field, h1, fromLE_toLE 4 n hb,
        toLE_length]
  | longInteger n =>
      simp only [FieldValue.wf, decide_eq_true_eq] at h
      have hb : n < 256 ^ 8 := by norm_num; omega
      have h1 : bytesAt (toLE 8 n) 0 8 = some (toLE 8 n) := by
        have h8 := toLE_length 8 n
        rw [← h8]
        exact bytesAt_self (toLE 8 n)
      simp [encode_field, fieldTypeOf, decode_field, h1, fromLE_toLE 8 n hb,
        toLE_length]
  | stringU8 bs =>
      simp only [FieldValue.wf, Bool.and_eq_true, decide_eq_true_eq] at h
      have hbody := decode_string_u8_body_spec [] bs h.1
      simp only [List.nil_append, List.length_nil] at hbody
      simp [encode_field, fieldTypeOf, decode_field, hbody, toLE_length]
  | stringU16 us =>
      simp only [FieldValue.wf, Bool.and_eq_true, decide_eq_true_eq] at h
      have hall : ∀ u ∈ us, u < 2 ^ 16 := by
        intro u hu
        have := h.2
        rw [List.all_eq_true] at this
        simpa using this u hu
      have hbody := decode_string_u16_body_spec [] us h.1 hall
      simp only [List.nil_append, List.length_nil] at hbody
      simp [encode_field, fieldTypeOf, decode_field, hbody, toLE_length,
        flatMap_toLE2_length]
      rw [sum_map_length_toLE2]
  | optionalStringU8 bs =>
      cases bs with
      | nil => rfl
      | cons b bs2 =>
          simp only [FieldValue.wf, Bool.and_eq_true, decide_eq_true_eq] at h
          have henc : encode_field (.optionalStringU8 (b :: bs2))
              = 1 :: (toLE 2 (b :: bs2).length ++ (b :: bs2)) := by
            simp [encode_field]
          have h1 : bytesAt (1 :: (toLE 2 (b :: bs2).length ++ (b :: bs2))) 0 1
              = some [1] := bytesAt_cons_one 1 _
          have hbody := decode_string_u8_body_spec [1] (b :: bs2) h.1
          simp only [List.singleton_append, List.length_singleton] at hbody
          simp only [fieldTypeOf]
          rw [henc]
          simp only [decode_field, h1, hbody]
          simp [toLE_length]
          omega
  | optionalStringU16 us =>
      cases us with
      | nil => rfl
      | cons u us2 =>
          simp only [FieldValue.wf, Bool.and_eq_true, decide_eq_true_eq] at h
          have hall : ∀ x ∈ u :: us2, x < 2 ^ 16 := by
            intro x hx
            have := h.2
            rw [List.all_eq_true] at this
            simpa using this x hx
          have henc : encode_field (.optionalStringU16 (u :: us2))
              = 1 :: (toLE 2 (u :: us2).length
                  ++ (u :: us2).flatMap (fun x => toLE 2 x)) := by
            simp [encode_field]
          have h1 : bytesAt (1 :: (toLE 2 (u :: us2).length
              ++ (u :: us2).flatMap (fun x => toLE 2 x))) 0 1
              = some [1] := bytesAt_cons_one 1 _
          have hbody := decode_string_u16_body_spec [1] (u :: us2) h.1 hall
          simp only [List.singleton_append, List.length_singleton] at hbody
          simp only [fieldTypeOf]
          rw [henc]
          simp only [decode_field, h1, hbody]
          simp [toLE_length, flatMap_toLE2_length]
          rw [sum_map_length_toLE2]
          omega

/-- Concrete instantiation of the C1 round trip: a two-unit UTF-16 string
value, well-formed, decodes from its own encoding. -/
theorem primitive_codec_round_trip_witness :
    (FieldValue.stringU16 [72, 300]).wf = true ∧
      decode_field (encode_field (.stringU16 [72, 300])) 0
          (fieldTypeOf (.stringU16 [72, 300]))
        = .ok (.stringU16 [72, 300], (encode_field (.stringU16 [72, 300])).length) :=
  ⟨by decide, primitive_codec_round_trip (.stringU16 [72, 300]) (by decide)⟩

/-- The replay agrees with sequential decoding of the label list: labels
are preserved, previews and final cursor are those of decoding the labels
in order from the starting cursor. -/
theorem update_first_row_decoded_eq_seq_decode (buf : List Nat) :
    ∀ (rows : List DecoderRow) (i : Nat),
      (update_first_row_decoded buf rows i).1.map DecoderRow.label
          = rows.map DecoderRow.label ∧
      (update_first_row_decoded buf rows i).1.map DecoderRow.preview
          = (seq_decode buf (rows.map DecoderRow.label) i).1 ∧
      (update_first_row_decoded buf rows i).2
          = (seq_decode buf (rows.map DecoderRow.label) i).2 := by
  intro rows
  induction rows with
  | nil => intro i; exact ⟨rfl, rfl, rfl⟩
  | cons r rest ih =>
      intro i
      obtain ⟨ih1, ih2, ih3⟩ :=
        ih (decode_data_by_fieldtype buf (field_type_of_label r.label) i).2
      refine ⟨?_, ?_, ?_⟩ <;>
        simp [update_first_row_decoded, seq_decode, ih1, ih2, ih3]

/-- Claim C6: after deleting a committed field, the decoder session
replays every remaining field against the buffer from the original cursor
(the end of the table header): the remaining labels are kept, and each
preview and the final cursor equal those obtained by sequentially
decoding the remaining field list, in order, from the header end. -/
theorem decoder_delete_row_replays_from_header_end (buf : List Nat)
    (rows : List DecoderRow) (selected initial_index : Nat) :
    (decoder_delete_row buf rows selected initial_index).1.map DecoderRow.label
        = (rows.eraseIdx selected).map DecoderRow.label ∧
    (decoder_delete_row buf rows selected initial_index).1.map DecoderRow.preview
        = (seq_decode buf ((rows.eraseIdx selected).map DecoderRow.label)
            initial_index).1 ∧
    (decoder_delete_row buf rows selected initial_index).2
        = (seq_decode buf ((rows.eraseIdx selected).map DecoderRow.label)
            initial_index).2 :=
  update_first_row_decoded_eq_seq_decode buf (rows.eraseIdx selected) initial_index

/-- Claim C7: the replay is deterministic and idempotent; running it a
second time over its own output, with no edits in between, returns the
same rows (labels and previews) and the same final cursor. -/
theorem update_first_row_decoded_idempotent (buf : List Nat) :
    ∀ (rows : List DecoderRow) (i : Nat),
      update_first_row_decoded buf (update_first_row_decoded buf rows i).1 i
        = update_first_row_decoded buf rows i := by
  intro rows
  induction rows with
  | nil => intro i; rfl
  | cons r rest ih =>
      intro i
      have ihd := ih (decode_data_by_fieldtype buf (field_type_of_label r.label) i).2
      simp [update_first_row_decoded, ihd]

/-- Claim C9: during the replay every committed field is typed by
matching its stored label, and a label matching none of the seven other
names is silently treated as OptionalStringU16; the replay never rejects
a field for an unknown label. -/
theorem decoder_unknown_label_defaults (label : String)
    (h : label ∉ ["Bool", "Float", "Integer", "LongInteger", "StringU8",
      "StringU16", "OptionalStringU8"]) :
    field_type_of_label label = .optionalStringU16 := by
  simp only [List.mem_cons, List.not_mem_nil, or_false, not_or] at h
  obtain ⟨h1, h2, h3, h4, h5, h6, h7⟩ := h
  simp [field_type_of_label, h1, h2, h3, h4, h5, h6, h7]

/-- Concrete instantiation of C9 at an unrecognized label. -/
theorem decoder_unknown_label_defaults_witness :
    "Whatever" ∉ ["Bool", "Float", "Integer", "LongInteger", "StringU8",
        "StringU16", "OptionalStringU8"] ∧
      field_type_of_label "Whatever" = .optionalStringU16 :=
  ⟨by decide, decoder_unknown_label_defaults "Whatever" (by decide)⟩

/-- Claim C4: CSV import into a table is all-or-nothing. Whenever any
stage fails (the parse, the load into the view, or the commit into the
container entry) nothing is committed and the prior in-memory table is
restored exactly; rows take effect only when the whole file parses and
both later stages succeed, and then exactly the parsed rows are
committed. -/
theorem db_import_csv_all_or_nothing (table : List (List FieldValue))
    (fields : List FieldType) (lines : List (List String)) (load_ok save_ok : Bool) :
    ((db_import_csv_handler table fields lines load_ok save_ok).2 = none →
        (db_import_csv_handler table fields lines load_ok save_ok).1 = table) ∧
    (∀ committed,
        (db_import_csv_handler table fields lines load_ok save_ok).2 = some committed →
          import_csv fields lines = .ok committed ∧
          (db_import_csv_handler table fields lines load_ok save_ok).1 = committed ∧
          load_ok = true ∧ save_ok = true) := by
  unfold db_import_csv_handler
  cases himp : import_csv fields lines with
  | error e => simp
  | ok parsed =>
      cases load_ok with
      | false => simp
      | true =>
          cases save_ok with
          | false => simp
          | true =>
              constructor
              · intro hnone; simp at hnone
              · intro committed hsome
                simp at hsome
                subst hsome
                exact ⟨rfl, rfl, rfl, rfl⟩

/-- Concrete instantiation of C4: a one-row file against a one-column
Boolean definition, committed when both later stages succeed. -/
theorem db_import_csv_all_or_nothing_witness :
    ((db_import_csv_handler [] [.boolean] [["true"]] true true).2 = none →
        (db_import_csv_handler [] [.boolean] [["true"]] true true).1 = []) ∧
    (∀ committed,
        (db_import_csv_handler [] [.boolean] [["true"]] true true).2 = some committed →
          import_csv [.boolean] [["true"]] = .ok committed ∧
          (db_import_csv_handler [] [.boolean] [["true"]] true true).1 = committed ∧
          True = True ∧ True = True) := by
  have h := db_import_csv_all_or_nothing [] [.boolean] [["true"]] true true
  exact ⟨h.1, fun committed hc => by
    have h2 := h.2 committed hc
    exact ⟨h2.1, h2.2.1, rfl, rfl⟩⟩

/-- Claim C8: the dependency-pack generation establishes the save-time
invariant: after filtering the opened data pack to the entries whose path
starts with the db segment, the header entry count equals the length of
the entry list of the pack that is saved, and that list is exactly the
filtered original, in order. -/
theorem generate_dependency_pack_count_invariant (pf : PackFile) :
    (generate_dependency_pack_filter pf).pack_file_header.packed_file_count
        = (generate_dependency_pack_filter pf).packed_files.length ∧
    (generate_dependency_pack_filter pf).packed_files
        = pf.packed_files.filter (fun f => starts_with_db f.packed_file_path) :=
  ⟨rfl, rfl⟩

/-- Claim C3, behavior at the failing input: open_packfile does not fail
on the unrecognized header tag PFH3; its dialect match maps it, through
the arm PFH4 | _, to the warhammer dialect, exactly as it maps the
recognized tag PFH4. -/
theorem open_packfile_default_matches_unknown_tag :
    game_selected_of_pack_id "PFH3" = "warhammer" ∧
      game_selected_of_pack_id "PFH3" = game_selected_of_pack_id "PFH4" := by
  constructor <;> rfl

/-- Claim C5 as amended: for a committed edit of a Loc key cell that
changes the text, the new key is rejected, with table and container left
untouched, when it is empty, contains a space character, or equals the
key of an existing row; a key passing all three checks is committed to
the table and written back to the container. -/
theorem loc_key_edit_guard (rows : List LocRow) (edited : Fin rows.length)
    (new_text : String) (hchange : (rows.get edited).key ≠ new_text) :
    ((new_text = "" ∨ rust_contains_char new_text ' ' = true ∨
        (∃ r ∈ rows, r.key = new_text)) →
      loc_key_cell_edited rows edited new_text = { rows := rows, written := none }) ∧
    ((new_text ≠ "" ∧ rust_contains_char new_text ' ' = false ∧
        (∀ r ∈ rows, r.key ≠ new_text)) →
      loc_key_cell_edited rows edited new_text
        = { rows := rows.set edited { rows.get edited with key := new_text },
            written := some (rows.set edited { rows.get edited with key := new_text }) }) := by
  have hany : (rows.any fun r => r.key = new_text) = true ↔
      ∃ r ∈ rows, r.key = new_text := by
    simp [List.any_eq_true]
  constructor
  · intro hbad
    by_cases h0 : new_text = ""
    · simp [loc_key_cell_edited, if_neg hchange, h0]
    · by_cases hsp : rust_contains_char new_text ' ' = true
      · simp [loc_key_cell_edited, if_neg hchange, h0, hsp]
      · have hex : (rows.any fun r => r.key = new_text) = true := by
          rcases hbad with h0x | hspx | hexx
          · exact absurd h0x h0
          · exact absurd hspx hsp
          · exact hany.mpr hexx
        simp [loc_key_cell_edited, if_neg hchange, h0, hsp, hex]
  · rintro ⟨h0, hsp, hnone⟩
    have hnoex : (rows.any fun r => r.key = new_text) = false := by
      rw [List.any_eq_false]
      intro r hr
      simpa using hnone r hr
    simp [loc_key_cell_edited, if_neg hchange, h0, hsp, hnoex]
    exact hchange

/-- Concrete instantiation of the amended C5: committing the fresh key b
into a one-row table whose key is a. -/
theorem loc_key_edit_guard_witness :
    ({ key := "a", text := "x", tooltip := true } : LocRow).key ≠ "b" ∧
      loc_key_cell_edited [{ key := "a", text := "x", tooltip := true }]
          ⟨0, by decide⟩ "b"
        = { rows := [{ key := "b", text := "x", tooltip := true }],
            written := some [{ key := "b", text := "x", tooltip := true }] } := by
  refine ⟨by decide, ?_⟩
  have h := (loc_key_edit_guard [{ key := "a", text := "x", tooltip := true }]
    ⟨0, by decide⟩ "b" (by decide)).2
  exact h ⟨by decide, by decide, by decide⟩

/-- Counterexample to C5 as stated: a new key containing a tab character
contains whitespace, yet the handler checks only for the space character,
so the edit is committed and written back rather than rejected. -/
theorem loc_key_edit_whitespace_counterexample :
    (∃ c ∈ (String.mk ['b', Char.ofNat 9, 'c']).data, c.isWhitespace = true) ∧
    loc_key_cell_edited [{ key := "a", text := "x", tooltip := true }]
        ⟨0, by decide⟩ (String.mk ['b', Char.ofNat 9, 'c'])
      = { rows := [⟨String.mk ['b', Char.ofNat 9, 'c'], "x", true⟩],
          written := some [⟨String.mk ['b', Char.ofNat 9, 'c'], "x", true⟩] } := by
  decide

/-- Claim C2 as amended: recombining the childless snapshot of any node
with its separately stored children snapshot reconstructs the node
exactly. -/
theorem node_recombine_round_trip (n : Node) :
    set_children (clone_without_children n) (get_children n) = n := by
  cases n <;> rfl

/-- Counterexample to the view round trip of C2: building the tree view
from an ESF whose root record holds one group with a single leaf and
reading it back drops the leaf (the big parent stores that group as a
flat list, which does not parse back as nested groups), so the read-back
ESF differs from the original. -/
theorem esf_view_round_trip_counterexample :
    (esf_tree_view_build
        ⟨7, .record "root" (.cons (.cons (.leaf (.boolean true)) .nil) .nil)⟩).map
        get_esf_from_view
      ≠ some ⟨7, .record "root" (.cons (.cons (.leaf (.boolean true)) .nil) .nil)⟩ := by
  intro h
  have h2 := congrArg (Option.map (fun e => leaf_count e.root_node)) h
  revert h2
  decide

/-- Claim C10: every key created by the Loc add-rows handler is New_line_j
for the least positive j whose key is absent from the table (j = 1 for an
empty table), and such a key is nonempty, whitespace-free and not yet
present, so the created row satisfies the key invariant with no operator
input. -/
theorem loc_add_rows_fresh_minimal_key (keys : List String) :
    ∃ j, 1 ≤ j ∧
      loc_add_row_new_key keys = some (new_line_key j) ∧
      new_line_key j ∉ keys ∧
      (∀ i, 1 ≤ i → i < j → new_line_key i ∈ keys) ∧
      (keys = [] → j = 1) ∧
      new_line_key j ≠ "" ∧
      (∀ c ∈ (new_line_key j).data, c.isWhitespace = false) := by
  cases keys with
  | nil =>
      exact ⟨1, le_refl 1, rfl, by simp, fun i h1 h2 => by omega, fun _ => rfl,
        new_line_key_ne_empty 1, new_line_key_not_whitespace 1⟩
  | cons k ks =>
      obtain ⟨j0, ⟨hj01, hj0b⟩, hj0free⟩ := exists_free_new_line_key (k :: ks)
      have hex : ∃ j, 1 ≤ j ∧ new_line_key j ∉ (k :: ks) := ⟨j0, hj01, hj0free⟩
      have hspec := Nat.find_spec hex
      have hmin : ∀ i, 1 ≤ i → i < Nat.find hex → new_line_key i ∈ (k :: ks) := by
        intro i h1 hlt
        have hni := Nat.find_min hex hlt
        by_contra hnm
        exact hni ⟨h1, hnm⟩
      have hle : Nat.find hex ≤ (k :: ks).length + 1 :=
        le_trans (Nat.find_min' hex ⟨hj01, hj0free⟩) hj0b
      refine ⟨Nat.find hex, hspec.1, ?_, hspec.2, hmin, by simp,
        new_line_key_ne_empty _, new_line_key_not_whitespace _⟩
      show loc_add_row_scan (k :: ks) (((k :: ks).length + 2) * ((k :: ks).length + 1))
          (k :: ks) 1 = some (new_line_key (Nat.find hex))
      apply loc_add_row_scan_correct _ (k :: ks) (k :: ks) [] 1 (Nat.find hex) rfl
      · simp
      · exact le_refl 1
      · intro i h1 h2; omega
      · intro s hs; simp at hs
      · exact hspec.1
      · exact hspec.2
      · exact hmin
      · have h0 : Nat.find hex + 1 - 1 = Nat.find hex := by omega
        rw [h0]
        have h1 : Nat.find hex * (k :: ks).length
            ≤ ((k :: ks).length + 1) * (k :: ks).length :=
          Nat.mul_le_mul_right _ (by omega)
        have h2 : ((k :: ks).length + 2) * ((k :: ks).length + 1)
            = ((k :: ks).length + 1) * (k :: ks).length + 2 * (k :: ks).length + 2 := by
          ring
        omega

/-- Concrete instantiation of C10 on a table already holding New_line_1. -/
theorem loc_add_rows_fresh_minimal_key_witness :
    ∃ j, 1 ≤ j ∧
      loc_add_row_new_key ["New_line_1"] = some (new_line_key j) ∧
      new_line_key j ∉ ["New_line_1"] ∧
      (∀ i, 1 ≤ i → i < j → new_line_key i ∈ ["New_line_1"]) ∧
      (["New_line_1"] = ([] : List String) → j = 1) ∧
      new_line_key j ≠ "" ∧
      (∀ c ∈ (new_line_key j).data, c.isWhitespace = false) :=
  loc_add_rows_fresh_minimal_key ["New_line_1"]
